import Mathlib

/-!
Verification of the core of `keys.py` from the redis-memory-usage repository.

The embedding models `largest_keys` (keys.py, lines 99-154) and the reporting
part of `main` (lines 254-259).  The external collaborators are modelled at
their interface boundary:

* the Redis store is a `Store`: a finite cursor chain of scan responses
  (`pages`, where response `i` answers the `i`-th scan request and the last
  response carries the terminating cursor 0) together with a per-key
  `memory_usage` result, where `Except.error` is a communication failure of
  the pipelined round trip and a successful measurement is an `Option Nat`
  (`none` models the Python `None` returned for a key deleted between
  enumeration and lookup);
* Python's `heapq` module is modelled by its contract: the heap is kept as a
  list sorted ascending in the tuple order, `heappush` is ordered insertion
  and `heappop` removes the head, which is the minimum;
* Python's `sorted` builtin is modelled as a stable insertion sort;
* Python's comparison of `(memory, key)` tuples is partial: comparing `None`
  with an integer raises `TypeError`, modelled as `Except.error ()`.

Machine integers do not appear: Python integers are unbounded, and memory
sizes reported by Redis are non-negative, so sizes are `Nat`.
-/

namespace RedisKeys

/-- A Redis key, as decoded to a Python string (`decode_responses=True`). -/
abbrev PyKey := String

/-- Result of `MEMORY USAGE` for one key: an integer, or Python `None` when
the key vanished between scan and lookup. -/
abbrev Mem := Option Nat

/-- A heap entry, exactly the tuple `(memory, key)` pushed by the source. -/
abbrev Entry := Mem × PyKey

/-- The exceptions `largest_keys` and `main` can surface: `ValueError` from
argument validation, the two re-raised `redis.RedisError`s (scan failure and
pipelined lookup failure), the generic `Exception` re-raised from the heap
block, and an uncaught `TypeError` from the final `sorted` call. -/
inductive PyError where
  | valueError (msg : String)
  | scanError
  | lookupError
  | heapError
  | typeError
deriving DecidableEq

/-- Python comparison `(m1, k1) < (m2, k2)` on heap entries: tuple comparison
first tests `m1 == m2`, then compares; `None < int` and `int < None` raise
`TypeError` (`Except.error ()`). -/
def entryLt : Entry → Entry → Except Unit Bool
  | (some a, k1), (some b, k2) =>
    Except.ok (if a = b then decide (k1 < k2) else decide (a < b))
  | (none, k1), (none, k2) => Except.ok (decide (k1 < k2))
  | _, _ => Except.error ()

/-- Contract model of `heapq.heappush`: insert the entry into the heap, kept
as a list sorted ascending by the tuple order.  Comparisons may raise. -/
def heapInsert (e : Entry) : List Entry → Except Unit (List Entry)
  | [] => Except.ok [e]
  | x :: xs =>
    match entryLt e x with
    | Except.error u => Except.error u
    | Except.ok true => Except.ok (e :: x :: xs)
    | Except.ok false =>
      match heapInsert e xs with
      | Except.error u => Except.error u
      | Except.ok l => Except.ok (x :: l)

/-- One iteration of the selector loop body (keys.py lines 147-149):
`heappush(key_memory_heap, (memory, key))` followed by
`if len(key_memory_heap) > heap_size: heappop(key_memory_heap)`.
`heappop` removes the minimum, i.e. the head of the sorted list. -/
def offer (N : Nat) (heap : List Entry) (e : Entry) : Except Unit (List Entry) :=
  match heapInsert e heap with
  | Except.error u => Except.error u
  | Except.ok h => if N < h.length then Except.ok h.tail else Except.ok h

/-- The `for key, memory in zip(keys, results)` loop over one batch. -/
def processBatch (N : Nat) (heap : List Entry) : List Entry → Except Unit (List Entry)
  | [] => Except.ok heap
  | e :: rest =>
    match offer N heap e with
    | Except.error u => Except.error u
    | Except.ok h => processBatch N h rest

/-- The pipelined `MEMORY USAGE` round trip for one batch of keys
(keys.py lines 136-143): one result per key, positionally aligned; a
communication failure fails the whole batch. -/
def lookupBatch (mu : PyKey → Except Unit Mem) : List PyKey → Except Unit (List Mem)
  | [] => Except.ok []
  | k :: ks =>
    match mu k with
    | Except.error u => Except.error u
    | Except.ok m =>
      match lookupBatch mu ks with
      | Except.error u => Except.error u
      | Except.ok ms => Except.ok (m :: ms)

/-- The external store at its interface boundary: the chain of scan
responses (`none` is a scan round-trip failure, `some keys` a page; the
response list is finite because the claims range over stores whose cursor
chain reaches the terminating cursor 0) and the per-key size query. -/
structure Store where
  pages : List (Option (List PyKey))
  memory_usage : PyKey → Except Unit Mem

/-- The `while True` scan loop of `largest_keys` (keys.py lines 129-153):
request the next page, pipeline the size lookups, offer every `(memory, key)`
pair to the heap, and stop after the page that returned cursor 0.  Each
caught error is re-raised as in the source. -/
def runPages (N : Nat) (mu : PyKey → Except Unit Mem) :
    List (Option (List PyKey)) → List Entry → Except PyError (List Entry)
  | [], heap => Except.ok heap
  | none :: _, _ => Except.error PyError.scanError
  | some keys :: rest, heap =>
    match lookupBatch mu keys with
    | Except.error _ => Except.error PyError.lookupError
    | Except.ok results =>
      match processBatch N heap (results.zip keys) with
      | Except.error _ => Except.error PyError.heapError
      | Except.ok heap2 => runPages N mu rest heap2

/-- Python `<` on the sort keys used by `sorted(key_memory_heap,
key=lambda x: x[0], reverse=True)`: compares the memory components only;
any comparison involving `None` raises `TypeError`. -/
def sortKeyLt : Mem → Mem → Except Unit Bool
  | some a, some b => Except.ok (decide (a < b))
  | _, _ => Except.error ()

/-- Stable descending insertion of one entry, by sort key only: the entry
moves past entries of strictly larger size and lands before the first entry
whose size is not larger, so equal sizes keep their relative order. -/
def insertDescM (a : Entry) : List Entry → Except Unit (List Entry)
  | [] => Except.ok [a]
  | b :: l =>
    match sortKeyLt a.1 b.1 with
    | Except.error u => Except.error u
    | Except.ok true =>
      match insertDescM a l with
      | Except.error u => Except.error u
      | Except.ok r => Except.ok (b :: r)
    | Except.ok false => Except.ok (a :: b :: l)

/-- Contract model of `sorted(heap, key=lambda x: x[0], reverse=True)`
(keys.py line 154): a stable sort, descending by the memory component. -/
def sortDescM : List Entry → Except Unit (List Entry)
  | [] => Except.ok []
  | a :: l =>
    match sortDescM l with
    | Except.error u => Except.error u
    | Except.ok s => insertDescM a s

/-- The embedding of `largest_keys(connection, heap_size, batch_size)`
(keys.py lines 99-154).  The arguments are integers (the `isinstance(.., int)`
half of the validation is carried by the type); non-positive values raise
`ValueError` before any store interaction.  `batch_size` is passed to `scan`
only as the `count` hint, which in the store model does not constrain the
page sizes the store chooses, exactly as in Redis. -/
def largest_keys (st : Store) (heap_size batch_size : Int) : Except PyError (List Entry) :=
  if heap_size ≤ 0 then
    Except.error (PyError.valueError "heap_size must be a positive integer.")
  else if batch_size ≤ 0 then
    Except.error (PyError.valueError "batch_size must be a positive integer.")
  else
    match runPages heap_size.toNat st.memory_usage st.pages [] with
    | Except.error e => Except.error e
    | Except.ok heap =>
      match sortDescM heap with
      | Except.error _ => Except.error PyError.typeError
      | Except.ok res => Except.ok res

/-- Python `str` of a measurement, as interpolated by the f-string. -/
def memRepr : Mem → String
  | some n => toString n
  | none => "None"

/-- The reporting tail of `main` (keys.py lines 254-259): run
`largest_keys` with the fixed `batch_size = 10`, print
`"No keys in database."` on an empty result, otherwise print one line per
entry.  Note the source unpacks `for key, memory in ...` over `(memory, key)`
tuples, so the f-string `f"{key}: {memory}"` interpolates the memory first
and the key second.  The result is the printed lines and the exit code. -/
def report (st : Store) (heap_size : Int) : Except PyError (List String × Int) :=
  match largest_keys st heap_size 10 with
  | Except.error e => Except.error e
  | Except.ok [] => Except.ok (["No keys in database."], 0)
  | Except.ok res => Except.ok (res.map (fun e => memRepr e.1 ++ ": " ++ e.2), 0)

/-- The cursors of the scan requests the loop issues, in order: request `i`
fetches response `i` of the chain.  The list mirrors `runPages`: a request is
recorded before its response is examined, and the loop stops after a scan
failure, a lookup failure, a heap failure, or the page carrying cursor 0. -/
def runCursors (N : Nat) (mu : PyKey → Except Unit Mem) :
    List (Option (List PyKey)) → List Entry → Nat → List Nat
  | [], _, _ => []
  | none :: _, _, i => [i]
  | some keys :: rest, heap, i =>
    match lookupBatch mu keys with
    | Except.error _ => [i]
    | Except.ok results =>
      match processBatch N heap (results.zip keys) with
      | Except.error _ => [i]
      | Except.ok heap2 => i :: runCursors N mu rest heap2 (i + 1)

/-- The scan requests `largest_keys` issues against the store: none when
validation rejects the arguments, otherwise the cursor chain walked by the
loop starting from cursor 0. -/
def scanRequests (st : Store) (heap_size batch_size : Int) : List Nat :=
  if heap_size ≤ 0 then []
  else if batch_size ≤ 0 then []
  else runCursors heap_size.toNat st.memory_usage st.pages [] 0

/-- Concatenation of the pages of a cursor chain: the enumerated keyspace in
processing order. -/
def keysOf : List (List PyKey) → List PyKey
  | [] => []
  | b :: bs => b ++ keysOf bs

/-! ## Pure counterparts

When every measurement is an integer, no tuple comparison can raise, and the
computation refines to total functions over `Nat`-sized entries.  These pure
counterparts carry the correctness proofs. -/

/-- An entry whose measurement is known to be an integer. -/
abbrev PEntry := Nat × PyKey

/-- Reinterpret an integer-sized entry as a heap entry. -/
def lift (e : PEntry) : Entry := (some e.1, e.2)

/-- Pure form of `entryLt` on integer-sized entries. -/
def pLt (a b : PEntry) : Bool :=
  if a.1 = b.1 then decide (a.2 < b.2) else decide (a.1 < b.1)

/-- Pure form of `heapInsert`. -/
def pInsert (e : PEntry) : List PEntry → List PEntry
  | [] => [e]
  | x :: xs => if pLt e x then e :: x :: xs else x :: pInsert e xs

/-- Pure form of `offer`. -/
def pOffer (N : Nat) (heap : List PEntry) (e : PEntry) : List PEntry :=
  if N < (pInsert e heap).length then (pInsert e heap).tail else pInsert e heap

/-- Pure form of `processBatch`, and the selector run over any entry list. -/
def pProcess (N : Nat) (heap : List PEntry) : List PEntry → List PEntry
  | [] => heap
  | e :: rest => pProcess N (pOffer N heap e) rest

/-- Insertion sort in the tuple order, the reference ordering of the heap. -/
def pSort : List PEntry → List PEntry
  | [] => []
  | x :: xs => pInsert x (pSort xs)

/-- Pure form of `insertDescM`. -/
def pInsertDesc (a : PEntry) : List PEntry → List PEntry
  | [] => [a]
  | b :: l => if a.1 < b.1 then b :: pInsertDesc a l else a :: b :: l

/-- Pure form of `sortDescM`. -/
def pSortDesc : List PEntry → List PEntry
  | [] => []
  | a :: l => pInsertDesc a (pSortDesc l)

/-- The lexicographic reflexive order on integer-sized entries. -/
def pLe (a b : PEntry) : Prop :=
  a.1 < b.1 ∨ (a.1 = b.1 ∧ a.2 ≤ b.2)

/-- Spec-side definition, following the claim wording "the N largest sizes
present": sort the sizes ascending and keep the last `N`. -/
def topNSizes (N : Nat) (l : List Nat) : List Nat :=
  (List.insertionSort (· ≤ ·) l).drop (l.length - N)

/-! ## Concrete stores used by witnesses and counterexamples -/

/-- Size lookup of the four-key store: a:5, b:3, c:9, d:1. -/
def W1mu (k : PyKey) : Except Unit Mem :=
  if k = "a" then Except.ok (some 5) else if k = "b" then Except.ok (some 3)
  else if k = "c" then Except.ok (some 9) else Except.ok (some 1)

/-- The sizes of the four-key store as a pure function. -/
def W1sz (k : PyKey) : Nat :=
  if k = "a" then 5 else if k = "b" then 3 else if k = "c" then 9 else 1

/-- Keyspace a:5, b:3, c:9, d:1 enumerated over two pages. -/
def W1store : Store := ⟨[some ["a", "b"], some ["c", "d"]], W1mu⟩

/-- The same keyspace enumerated in a single page in reversed order. -/
def W1storeR : Store := ⟨[some ["d", "c", "b", "a"]], W1mu⟩

/-- A store whose second scan request fails. -/
def W6store : Store := ⟨[some ["a", "b"], none], W1mu⟩

/-- A store with an empty keyspace: one page carrying no keys. -/
def W7store : Store := ⟨[some []], W1mu⟩

/-- A store with the single key a of size 5. -/
def C2store : Store := ⟨[some ["a"]], fun _ => Except.ok (some 5)⟩

/-- A store where key b was deleted between scan and lookup, so its
measurement comes back as `None` while key a measures 5. -/
def C3store : Store :=
  ⟨[some ["a", "b"]], fun k => if k = "a" then Except.ok (some 5) else Except.ok none⟩

/-- Measurement function of `C3storeW`: x measures 7, y is absent. -/
def C3mW (k : PyKey) : Mem := if k = "x" then some 7 else none

/-- A second deleted-key store, for instantiating the amended claim. -/
def C3storeW : Store := ⟨[some ["x", "y"]], fun k => Except.ok (C3mW k)⟩

/-! ## The lexicographic order on integer-sized entries -/

theorem pLe_refl (a : PEntry) : pLe a a := Or.inr ⟨rfl, le_refl _⟩

theorem pLe_trans {a b c : PEntry} (h1 : pLe a b) (h2 : pLe b c) : pLe a c := by
  rcases h1 with h1 | ⟨e1, l1⟩ <;> rcases h2 with h2 | ⟨e2, l2⟩
  · exact Or.inl (lt_trans h1 h2)
  · exact Or.inl (e2 ▸ h1)
  · exact Or.inl (e1 ▸ h2)
  · exact Or.inr ⟨e1.trans e2, le_trans l1 l2⟩

theorem pLe_antisymm {a b : PEntry} (h1 : pLe a b) (h2 : pLe b a) : a = b := by
  rcases a with ⟨a1, a2⟩; rcases b with ⟨b1, b2⟩
  rcases h1 with h1 | ⟨e1, l1⟩ <;> rcases h2 with h2 | ⟨e2, l2⟩
  · exact absurd (lt_trans h1 h2) (lt_irrefl _)
  · exact absurd (e2 ▸ h1) (lt_irrefl _)
  · exact absurd (e1 ▸ h2) (lt_irrefl _)
  · simp only at e1 l1 l2
    subst e1
    have := le_antisymm l1 l2
    simp only at this
    subst this
    rfl

theorem pLe_total (a b : PEntry) : pLe a b ∨ pLe b a := by
  rcases lt_trichotomy a.1 b.1 with h | h | h
  · exact Or.inl (Or.inl h)
  · rcases le_total a.2 b.2 with h2 | h2
    · exact Or.inl (Or.inr ⟨h, h2⟩)
    · exact Or.inr (Or.inr ⟨h.symm, h2⟩)
  · exact Or.inr (Or.inl h)

instance : IsTrans PEntry pLe := ⟨fun _ _ _ => pLe_trans⟩

instance : IsAntisymm PEntry pLe := ⟨fun _ _ => pLe_antisymm⟩

instance : IsTotal PEntry pLe := ⟨pLe_total⟩

theorem pLt_eq_true_iff {a b : PEntry} :
    pLt a b = true ↔ (a.1 < b.1 ∨ (a.1 = b.1 ∧ a.2 < b.2)) := by
  unfold pLt
  by_cases h : a.1 = b.1 <;> simp [h]

theorem pLt_eq_false_iff {a b : PEntry} : pLt a b = false ↔ pLe b a := by
  unfold pLt pLe
  by_cases h : a.1 = b.1
  · simp [h, not_lt, lt_irrefl]
  · simp only [h, if_false, decide_eq_false_iff_not, not_lt]
    constructor
    · intro hba
      rcases lt_or_eq_of_le hba with h1 | h1
      · exact Or.inl h1
      · exact absurd h1.symm h
    · rintro (h1 | ⟨h1, _⟩)
      · exact le_of_lt h1
      · exact le_of_eq h1

theorem pLe_of_pLt {a b : PEntry} (h : pLt a b = true) : pLe a b := by
  rcases pLt_eq_true_iff.mp h with h1 | ⟨h1, h2⟩
  · exact Or.inl h1
  · exact Or.inr ⟨h1, le_of_lt h2⟩

theorem pLt_of_pLt_of_pLe {a b c : PEntry} (h1 : pLt a b = true) (h2 : pLe b c) :
    pLt a c = true := by
  rw [pLt_eq_true_iff] at h1 ⊢
  rcases h1 with h1 | ⟨e1, l1⟩ <;> rcases h2 with h2 | ⟨e2, l2⟩
  · exact Or.inl (lt_trans h1 h2)
  · exact Or.inl (e2 ▸ h1)
  · exact Or.inl (e1 ▸ h2)
  · exact Or.inr ⟨e1.trans e2, lt_of_lt_of_le l1 l2⟩

/-! ## Insertion into a sorted heap -/

theorem pInsert_length (e : PEntry) (l : List PEntry) :
    (pInsert e l).length = l.length + 1 := by
  induction l with
  | nil => rfl
  | cons x xs ih => cases hpx : pLt e x <;> simp [pInsert, hpx, ih]

theorem pInsert_perm (e : PEntry) (l : List PEntry) : (pInsert e l).Perm (e :: l) := by
  induction l with
  | nil => exact List.Perm.refl _
  | cons x xs ih =>
    cases hpx : pLt e x
    · simp only [pInsert, hpx, Bool.false_eq_true, if_false]
      exact (ih.cons x).trans (List.Perm.swap e x xs)
    · simp only [pInsert, hpx, if_true]
      exact List.Perm.refl _

theorem pInsert_sorted {l : List PEntry} (e : PEntry) (h : l.Sorted pLe) :
    (pInsert e l).Sorted pLe := by
  induction l with
  | nil => simp [pInsert]
  | cons x xs ih =>
    rw [List.sorted_cons] at h
    cases hpx : pLt e x
    · simp only [pInsert, hpx, Bool.false_eq_true, if_false]
      rw [List.sorted_cons]
      refine ⟨?_, ih h.2⟩
      intro b hb
      rcases List.mem_cons.mp ((pInsert_perm e xs).mem_iff.mp hb) with rfl | hb2
      · exact pLt_eq_false_iff.mp hpx
      · exact h.1 b hb2
    · simp only [pInsert, hpx, if_true]
      rw [List.sorted_cons]
      refine ⟨?_, List.sorted_cons.mpr h⟩
      intro b hb
      rcases List.mem_cons.mp hb with rfl | hb2
      · exact pLe_of_pLt hpx
      · exact pLe_trans (pLe_of_pLt hpx) (h.1 b hb2)

theorem pInsert_append_of_forall {u : List PEntry} {e : PEntry}
    (v : List PEntry) (h : ∀ x ∈ u, pLt e x = false) :
    pInsert e (u ++ v) = u ++ pInsert e v := by
  induction u with
  | nil => rfl
  | cons x xs ih =>
    have hx := h x (List.mem_cons_self x xs)
    simp only [List.cons_append, pInsert, hx, Bool.false_eq_true, if_false,
      List.append_eq]
    rw [ih (fun y hy => h y (List.mem_cons_of_mem x hy))]

theorem pInsert_append_of_exists {u : List PEntry} {e : PEntry}
    (v : List PEntry) (h : ∃ x ∈ u, pLt e x = true) :
    pInsert e (u ++ v) = pInsert e u ++ v := by
  induction u with
  | nil =>
    rcases h with ⟨x, hx, _⟩
    exact absurd hx (List.not_mem_nil x)
  | cons x xs ih =>
    cases hpx : pLt e x
    · simp only [List.cons_append, pInsert, hpx, Bool.false_eq_true, if_false,
      List.append_eq]
      rw [ih ?_]
      rcases h with ⟨y, hy, hlt⟩
      rcases List.mem_cons.mp hy with rfl | hy2
      · rw [hpx] at hlt; cases hlt
      · exact ⟨y, hy2, hlt⟩
    · simp only [List.cons_append, pInsert, hpx, if_true, List.append_eq]

/-! ## The reference sort -/

theorem pSort_perm (l : List PEntry) : (pSort l).Perm l := by
  induction l with
  | nil => exact List.Perm.refl _
  | cons x xs ih => exact (pInsert_perm x (pSort xs)).trans (ih.cons x)

theorem pSort_sorted (l : List PEntry) : (pSort l).Sorted pLe := by
  induction l with
  | nil => simp [pSort]
  | cons x xs ih => exact pInsert_sorted x ih

theorem pSort_length (l : List PEntry) : (pSort l).length = l.length :=
  (pSort_perm l).length_eq

theorem pSort_eq_of_perm {l1 l2 : List PEntry} (h : l1.Perm l2) :
    pSort l1 = pSort l2 :=
  List.eq_of_perm_of_sorted
    ((pSort_perm l1).trans (h.trans (pSort_perm l2).symm))
    (pSort_sorted l1) (pSort_sorted l2)

theorem pSort_concat (es : List PEntry) (e : PEntry) :
    pSort (es ++ [e]) = pInsert e (pSort es) :=
  List.eq_of_perm_of_sorted
    ((pSort_perm _).trans
      ((List.perm_append_singleton e es).trans
        (((pSort_perm es).cons e).symm.trans (pInsert_perm e (pSort es)).symm)))
    (pSort_sorted _) (pInsert_sorted e (pSort_sorted es))

/-! ## The selector keeps exactly the lexicographically largest entries -/

theorem pOffer_ne_nil {ph : List PEntry} (N : Nat) (e : PEntry) (h : ph ≠ []) :
    pOffer N ph e ≠ [] := by
  have h1 : 1 ≤ ph.length := List.length_pos.mpr h
  intro hn
  unfold pOffer at hn
  by_cases hc : N < (pInsert e ph).length
  · rw [if_pos hc] at hn
    have h3 := congrArg List.length hn
    rw [List.length_tail, pInsert_length] at h3
    simp [List.length_eq_zero] at h3
    exact absurd h3 h
  · rw [if_neg hc] at hn
    have h3 := congrArg List.length hn
    rw [pInsert_length] at h3
    simp at h3

theorem pOffer_drop {s : List PEntry} (hs : s.Sorted pLe) (e : PEntry) (N : Nat)
    (hN : 1 ≤ N) :
    pOffer N (s.drop (s.length - N)) e = (pInsert e s).drop (s.length + 1 - N) := by
  by_cases hLN : s.length < N
  · have h0 : s.length - N = 0 := by omega
    have h1 : s.length + 1 - N = 0 := by omega
    rw [h0, h1, List.drop_zero, List.drop_zero]
    unfold pOffer
    have hlen : (pInsert e s).length = s.length + 1 := pInsert_length e s
    have hc : ¬ N < (pInsert e s).length := by omega
    simp [hc]
  · push_neg at hLN
    set k := s.length - N with hk
    have hks : k ≤ s.length := by omega
    have hdroplen : (s.drop k).length = N := by rw [List.length_drop]; omega
    have hlen : (pInsert e (s.drop k)).length = N + 1 := by
      rw [pInsert_length, hdroplen]
    have hcond : N < (pInsert e (s.drop k)).length := by omega
    unfold pOffer
    simp only [hcond, if_true]
    have hsplit : s.take k ++ s.drop k = s := List.take_append_drop k s
    have hkl : (s.take k).length = k := by rw [List.length_take]; omega
    have htarget : s.length + 1 - N = k + 1 := by omega
    rw [htarget]
    have hs2 : (s.take k ++ s.drop k).Sorted pLe := by rw [hsplit]; exact hs
    have hcross := (List.pairwise_append.mp hs2).2.2
    obtain ⟨h0, t, hst⟩ : ∃ h0 t, s.drop k = h0 :: t := by
      cases hd : s.drop k with
      | nil => rw [hd] at hdroplen; simp at hdroplen; omega
      | cons a b => exact ⟨a, b, rfl⟩
    by_cases hex : ∃ x ∈ s.take k, pLt e x = true
    · have h1 : pInsert e s = pInsert e (s.take k) ++ s.drop k := by
        conv_lhs => rw [← hsplit]
        exact pInsert_append_of_exists (s.drop k) hex
      have h2 : (pInsert e (s.take k) ++ s.drop k).drop (k + 1) = s.drop k := by
        have h3 : (pInsert e (s.take k)).length = k + 1 := by
          rw [pInsert_length, hkl]
        rw [← h3, List.drop_left]
      rw [h1, h2]
      rcases hex with ⟨x, hxmem, hxlt⟩
      have hle : pLe x h0 := hcross x hxmem h0 (by rw [hst]; exact List.mem_cons_self h0 t)
      have hlt : pLt e h0 = true := pLt_of_pLt_of_pLe hxlt hle
      rw [hst]
      simp [pInsert, hlt]
    · push_neg at hex
      have hall : ∀ x ∈ s.take k, pLt e x = false := by
        intro x hx
        cases hpt : pLt e x
        · rfl
        · exact absurd hpt (hex x hx)
      have h1 : pInsert e s = s.take k ++ pInsert e (s.drop k) := by
        conv_lhs => rw [← hsplit]
        exact pInsert_append_of_forall (s.drop k) hall
      have h2 : (s.take k ++ pInsert e (s.drop k)).drop (k + 1) =
          (pInsert e (s.drop k)).drop 1 := by
        rw [show k + 1 = (s.take k).length + 1 by rw [hkl]]
        rw [List.drop_append]
      rw [h1, h2, List.drop_one]

theorem pProcess_append (N : Nat) (heap : List PEntry) (u v : List PEntry) :
    pProcess N heap (u ++ v) = pProcess N (pProcess N heap u) v := by
  induction u generalizing heap with
  | nil => rfl
  | cons e rest ih => simp only [List.cons_append, pProcess]; exact ih _

theorem pProcess_eq (N : Nat) (hN : 1 ≤ N) (es : List PEntry) :
    pProcess N [] es = (pSort es).drop (es.length - N) := by
  induction es using List.reverseRecOn with
  | nil => simp [pProcess, pSort]
  | append_singleton es e ih =>
    rw [pProcess_append]
    simp only [pProcess]
    rw [ih]
    have hstep := pOffer_drop (pSort_sorted es) e N hN
    rw [pSort_length] at hstep
    rw [hstep, ← pSort_concat]
    simp

/-! ## The final descending sort -/

theorem pInsertDesc_perm (a : PEntry) (l : List PEntry) :
    (pInsertDesc a l).Perm (a :: l) := by
  induction l with
  | nil => exact List.Perm.refl _
  | cons b bs ih =>
    by_cases hab : a.1 < b.1
    · simp only [pInsertDesc, hab, if_true]
      exact (ih.cons b).trans (List.Perm.swap a b bs)
    · simp only [pInsertDesc, hab, if_false]
      exact List.Perm.refl _

theorem pInsertDesc_pairwise {l : List PEntry} (a : PEntry)
    (h : l.Pairwise (fun x y => y.1 ≤ x.1)) :
    (pInsertDesc a l).Pairwise (fun x y => y.1 ≤ x.1) := by
  induction l with
  | nil => simp [pInsertDesc]
  | cons b bs ih =>
    rw [List.pairwise_cons] at h
    by_cases hab : a.1 < b.1
    · simp only [pInsertDesc, hab, if_true]
      rw [List.pairwise_cons]
      refine ⟨?_, ih h.2⟩
      intro y hy
      rcases List.mem_cons.mp ((pInsertDesc_perm a bs).mem_iff.mp hy) with rfl | hy2
      · exact le_of_lt hab
      · exact h.1 y hy2
    · simp only [pInsertDesc, hab, if_false]
      rw [List.pairwise_cons]
      refine ⟨?_, List.pairwise_cons.mpr h⟩
      intro y hy
      rcases List.mem_cons.mp hy with rfl | hy2
      · exact le_of_not_lt hab
      · exact le_trans (h.1 y hy2) (le_of_not_lt hab)

theorem pSortDesc_perm (l : List PEntry) : (pSortDesc l).Perm l := by
  induction l with
  | nil => exact List.Perm.refl _
  | cons a l ih => exact (pInsertDesc_perm a (pSortDesc l)).trans (ih.cons a)

theorem pSortDesc_pairwise (l : List PEntry) :
    (pSortDesc l).Pairwise (fun x y => y.1 ≤ x.1) := by
  induction l with
  | nil => simp [pSortDesc]
  | cons a l ih => exact pInsertDesc_pairwise a ih

/-! ## Refinement: integer-sized runs never raise -/

theorem entryLt_lift (a b : PEntry) :
    entryLt (lift a) (lift b) = Except.ok (pLt a b) := rfl

theorem heapInsert_lift (e : PEntry) (l : List PEntry) :
    heapInsert (lift e) (l.map lift) = Except.ok ((pInsert e l).map lift) := by
  induction l with
  | nil => rfl
  | cons x xs ih =>
    simp only [List.map_cons, heapInsert, entryLt_lift]
    cases hpx : pLt e x
    · simp [pInsert, hpx, ih]
    · simp [pInsert, hpx]

theorem offer_lift (N : Nat) (l : List PEntry) (e : PEntry) :
    offer N (l.map lift) (lift e) = Except.ok ((pOffer N l e).map lift) := by
  unfold offer pOffer
  rw [heapInsert_lift]
  simp only [List.length_map, pInsert_length]
  by_cases hc : N < l.length + 1
  · simp only [hc, if_true]
    congr 1
    cases hp : pInsert e l with
    | nil => simp
    | cons y ys => simp
  · simp only [hc, if_false]

theorem processBatch_lift (N : Nat) (h : List PEntry) (es : List PEntry) :
    processBatch N (h.map lift) (es.map lift) =
      Except.ok ((pProcess N h es).map lift) := by
  induction es generalizing h with
  | nil => rfl
  | cons e rest ih =>
    simp only [List.map_cons, processBatch, offer_lift]
    simp only [pProcess]
    exact ih _

theorem sortKeyLt_lift (a b : PEntry) :
    sortKeyLt (lift a).1 (lift b).1 = Except.ok (decide (a.1 < b.1)) := rfl

theorem insertDescM_lift (a : PEntry) (l : List PEntry) :
    insertDescM (lift a) (l.map lift) = Except.ok ((pInsertDesc a l).map lift) := by
  induction l with
  | nil => rfl
  | cons b bs ih =>
    simp only [List.map_cons, insertDescM, sortKeyLt_lift]
    by_cases hab : a.1 < b.1
    · simp [pInsertDesc, hab, ih]
    · simp [pInsertDesc, hab]

theorem sortDescM_lift (l : List PEntry) :
    sortDescM (l.map lift) = Except.ok ((pSortDesc l).map lift) := by
  induction l with
  | nil => rfl
  | cons a bs ih =>
    simp only [List.map_cons, sortDescM, ih]
    simp only [pSortDesc, insertDescM_lift]

theorem lookupBatch_ok (mu : PyKey → Except Unit Mem) (m : PyKey → Mem)
    (ks : List PyKey) (h : ∀ k ∈ ks, mu k = Except.ok (m k)) :
    lookupBatch mu ks = Except.ok (ks.map m) := by
  induction ks with
  | nil => rfl
  | cons k rest ih =>
    simp only [lookupBatch, h k (List.mem_cons_self k rest), List.map_cons]
    rw [ih (fun y hy => h y (List.mem_cons_of_mem k hy))]

theorem zip_map_self (m : PyKey → Mem) (ks : List PyKey) :
    (ks.map m).zip ks = ks.map (fun k => (m k, k)) := by
  induction ks with
  | nil => rfl
  | cons k rest ih => simp [List.zip_cons_cons, ih]

theorem keysOf_append (u v : List (List PyKey)) :
    keysOf (u ++ v) = keysOf u ++ keysOf v := by
  induction u with
  | nil => rfl
  | cons b bs ih => simp [keysOf, ih]

theorem runPages_good (N : Nat) (mu : PyKey → Except Unit Mem) (sz : PyKey → Nat)
    (gp : List (List PyKey)) (ph : List PEntry)
    (hsz : ∀ k ∈ keysOf gp, mu k = Except.ok (some (sz k))) :
    runPages N mu (gp.map Option.some) (ph.map lift) =
      Except.ok ((pProcess N ph ((keysOf gp).map (fun k => (sz k, k)))).map lift) := by
  induction gp generalizing ph with
  | nil => simp [runPages, keysOf, pProcess]
  | cons ks rest ih =>
    have hks : ∀ k ∈ ks, mu k = Except.ok ((fun k => some (sz k)) k) := by
      intro k hk
      exact hsz k (by simp [keysOf, hk])
    have hlk := lookupBatch_ok mu (fun k => some (sz k)) ks hks
    have hent : ks.map (fun k => (some (sz k), k)) =
        (ks.map (fun k => (sz k, k))).map lift := by
      simp only [List.map_map]
      rfl
    have hih := ih (pProcess N ph (ks.map (fun k => (sz k, k))))
      (fun k hk => hsz k (by simp [keysOf]; exact Or.inr hk))
    have hpb := processBatch_lift N ph (ks.map (fun k => (sz k, k)))
    rw [List.map_map] at hpb
    have hkeys : keysOf (ks :: rest) = ks ++ keysOf rest := rfl
    simp [runPages, hlk, zip_map_self, hent, hpb, hih, hkeys,
      List.map_append, pProcess_append]

theorem largest_keys_good (st : Store) (gp : List (List PyKey)) (sz : PyKey → Nat)
    (hs bs : Int) (hpages : st.pages = gp.map Option.some)
    (hsz : ∀ k ∈ keysOf gp, st.memory_usage k = Except.ok (some (sz k)))
    (hhs : 0 < hs) (hbs : 0 < bs) :
    largest_keys st hs bs =
      Except.ok
        ((pSortDesc
          (pProcess hs.toNat [] ((keysOf gp).map (fun k => (sz k, k))))).map lift) := by
  unfold largest_keys
  rw [if_neg (by omega), if_neg (by omega), hpages]
  have h1 := runPages_good hs.toNat st.memory_usage sz gp [] hsz
  simp only [List.map_nil] at h1
  simp [h1, sortDescM_lift]

theorem runPages_append_ok (N : Nat) (mu : PyKey → Except Unit Mem)
    (p1 p2 : List (Option (List PyKey))) (heap h : List Entry)
    (hok : runPages N mu p1 heap = Except.ok h) :
    runPages N mu (p1 ++ p2) heap = runPages N mu p2 h := by
  induction p1 generalizing heap with
  | nil =>
    simp only [runPages] at hok
    cases hok
    rfl
  | cons p rest ih =>
    cases p with
    | none => simp [runPages] at hok
    | some ks =>
      cases hl : lookupBatch mu ks with
      | error u => simp [runPages, hl] at hok
      | ok results =>
        cases hp : processBatch N heap (results.zip ks) with
        | error u => simp [runPages, hl, hp] at hok
        | ok heap2 =>
          simp only [List.cons_append]
          simp [runPages, hl, hp] at hok ⊢
          exact ih _ hok

theorem runCursors_good (N : Nat) (mu : PyKey → Except Unit Mem) (sz : PyKey → Nat)
    (gp : List (List PyKey)) (ph : List PEntry) (i : Nat)
    (hsz : ∀ k ∈ keysOf gp, mu k = Except.ok (some (sz k))) :
    runCursors N mu (gp.map Option.some) (ph.map lift) i =
      (List.range gp.length).map (i + ·) := by
  induction gp generalizing ph i with
  | nil => simp [runCursors]
  | cons ks rest ih =>
    have hks : ∀ k ∈ ks, mu k = Except.ok ((fun k => some (sz k)) k) := by
      intro k hk
      exact hsz k (by simp [keysOf, hk])
    have hlk := lookupBatch_ok mu (fun k => some (sz k)) ks hks
    have hent : ks.map (fun k => (some (sz k), k)) =
        (ks.map (fun k => (sz k, k))).map lift := by
      simp only [List.map_map]
      rfl
    have hih := ih (pProcess N ph (ks.map (fun k => (sz k, k)))) (i + 1)
      (fun k hk => hsz k (by simp [keysOf]; exact Or.inr hk))
    have hpb := processBatch_lift N ph (ks.map (fun k => (sz k, k)))
    rw [List.map_map] at hpb
    simp only [List.map_cons, runCursors]
    simp [hlk, zip_map_self, hent, hpb, hih]
    rw [List.range_succ_eq_map, List.map_cons, List.map_map]
    refine congrArg₂ _ (by omega) (List.map_congr_left ?_)
    intro j hj
    simp [Function.comp]
    omega

/-! ## Heap length bounds at the raising level -/

theorem heapInsert_length {e : Entry} {l l2 : List Entry}
    (h : heapInsert e l = Except.ok l2) : l2.length = l.length + 1 := by
  induction l generalizing l2 with
  | nil =>
    simp only [heapInsert] at h
    cases h
    rfl
  | cons x xs ih =>
    simp only [heapInsert] at h
    cases he : entryLt e x with
    | error u => rw [he] at h; cases h
    | ok b =>
      rw [he] at h
      cases b with
      | true =>
        simp at h
        subst h
        rfl
      | false =>
        cases hr : heapInsert e xs with
        | error u => rw [hr] at h; cases h
        | ok l3 =>
          rw [hr] at h
          simp at h
          subst h
          simp [ih hr]

theorem offer_length {N : Nat} {heap h2 : List Entry} {e : Entry}
    (hof : offer N heap e = Except.ok h2) (hb : heap.length ≤ N) :
    h2.length ≤ N := by
  unfold offer at hof
  cases hi : heapInsert e heap with
  | error u => rw [hi] at hof; cases hof
  | ok h1 =>
    rw [hi] at hof
    have hl := heapInsert_length hi
    by_cases hc : N < h1.length
    · simp [hc] at hof
      subst hof
      rw [List.length_tail]
      omega
    · simp [hc] at hof
      subst hof
      omega

theorem processBatch_length {N : Nat} (es : List Entry) (heap h : List Entry)
    (hb : heap.length ≤ N) (hrun : processBatch N heap es = Except.ok h) :
    h.length ≤ N := by
  induction es generalizing heap with
  | nil =>
    simp only [processBatch] at hrun
    cases hrun
    exact hb
  | cons e rest ih =>
    simp only [processBatch] at hrun
    cases ho : offer N heap e with
    | error u => rw [ho] at hrun; cases hrun
    | ok heap2 =>
      rw [ho] at hrun
      exact ih heap2 (offer_length ho hb) hrun

/-! ## Mixed measurements make the heap block raise -/

theorem heapInsert_some_of_lifted (a : Nat) (k : PyKey) (ph : List PEntry) :
    heapInsert (some a, k) (ph.map lift) =
      Except.ok ((pInsert (a, k) ph).map lift) :=
  heapInsert_lift (a, k) ph

theorem heapInsert_none_of_none (k : PyKey) (qh : List Entry)
    (hall : ∀ x ∈ qh, x.1 = none) :
    ∃ qh2, heapInsert (none, k) qh = Except.ok qh2 ∧
      (∀ x ∈ qh2, x.1 = none) ∧ qh2.length = qh.length + 1 := by
  induction qh with
  | nil => exact ⟨[(none, k)], rfl, by simp, rfl⟩
  | cons q qs ih =>
    have hq : q.1 = none := hall q (List.mem_cons_self q qs)
    obtain ⟨m, k2⟩ := q
    simp only at hq
    subst hq
    obtain ⟨qh2, hq2, hall2, hlen2⟩ :=
      ih (fun x hx => hall x (List.mem_cons_of_mem _ hx))
    cases hlt : decide (k < k2) with
    | true =>
      simp at hlt
      refine ⟨(none, k) :: (none, k2) :: qs, ?_, ?_, rfl⟩
      · simp [heapInsert, entryLt, hlt]
      · intro x hx
        rcases List.mem_cons.mp hx with rfl | hx2
        · rfl
        · exact hall x hx2
    | false =>
      simp at hlt
      have hlt2 : ¬ (k.data < k2.data) := not_lt.mpr hlt
      refine ⟨(none, k2) :: qh2, ?_, ?_, by simp [hlen2]⟩
      · simp [heapInsert, entryLt, hlt2, hq2]
      · intro x hx
        rcases List.mem_cons.mp hx with rfl | hx2
        · rfl
        · exact hall2 x hx2

theorem processBatch_error_of_some_heap (N : Nat) (es : List Entry)
    (ph : List PEntry) (hne : ph ≠ [])
    (hwit : ∃ e ∈ es, e.1 = none) :
    processBatch N (ph.map lift) es = Except.error () := by
  induction es generalizing ph with
  | nil =>
    rcases hwit with ⟨e, he, _⟩
    exact absurd he (List.not_mem_nil e)
  | cons e rest ih =>
    obtain ⟨m, k⟩ := e
    by_cases hm : m = none
    · subst hm
      obtain ⟨q, qs, hq⟩ : ∃ q qs, ph = q :: qs := by
        cases ph with
        | nil => exact absurd rfl hne
        | cons q qs => exact ⟨q, qs, rfl⟩
      subst hq
      simp [processBatch, offer, heapInsert, entryLt, lift]
    · obtain ⟨a, ha⟩ := Option.ne_none_iff_exists'.mp hm
      subst ha
      simp only [processBatch]
      have hof := offer_lift N ph (a, k)
      simp only [lift] at hof
      rw [hof]
      rcases hwit with ⟨y, hy, hy1⟩
      rcases List.mem_cons.mp hy with heq | hy2
      · rw [heq] at hy1
        simp at hy1
      · exact ih (pOffer N ph (a, k)) (pOffer_ne_nil N (a, k) hne) ⟨y, hy2, hy1⟩

theorem processBatch_error_of_none_heap (N : Nat) (es : List Entry)
    (qh : List Entry) (hne : qh ≠ []) (hall : ∀ x ∈ qh, x.1 = none)
    (hwit : ∃ e ∈ es, ∃ a, e.1 = some a) :
    processBatch N qh es = Except.error () := by
  induction es generalizing qh with
  | nil =>
    rcases hwit with ⟨e, he, _⟩
    exact absurd he (List.not_mem_nil e)
  | cons e rest ih =>
    obtain ⟨m, k⟩ := e
    cases m with
    | some a =>
      obtain ⟨q, qs, hq⟩ : ∃ q qs, qh = q :: qs := by
        cases qh with
        | nil => exact absurd rfl hne
        | cons q qs => exact ⟨q, qs, rfl⟩
      subst hq
      have hq1 : q.1 = none := hall q (List.mem_cons_self q qs)
      obtain ⟨mq, kq⟩ := q
      simp only at hq1
      subst hq1
      simp [processBatch, offer, heapInsert, entryLt]
    | none =>
      obtain ⟨qh2, hq2, hall2, hlen2⟩ := heapInsert_none_of_none k qh hall
      have hne2 : qh.length + 1 ≤ qh2.length := by omega
      rcases hwit with ⟨y, hy, a, hy1⟩
      have hwit2 : ∃ e ∈ rest, ∃ a, e.1 = some a := by
        rcases List.mem_cons.mp hy with heq | hy2
        · rw [heq] at hy1
          simp at hy1
        · exact ⟨y, hy2, a, hy1⟩
      by_cases hc : N < qh2.length
      · have hred : processBatch N qh ((none, k) :: rest) =
            processBatch N qh2.tail rest := by
          simp [processBatch, offer, hq2, hc]
        rw [hred]
        refine ih qh2.tail ?_ (fun x hx => hall2 x (List.mem_of_mem_tail hx)) hwit2
        intro htail
        have hlt := congrArg List.length htail
        rw [List.length_tail] at hlt
        simp only [List.length_nil] at hlt
        have hql : 1 ≤ qh.length := List.length_pos.mpr hne
        omega
      · have hred : processBatch N qh ((none, k) :: rest) =
            processBatch N qh2 rest := by
          simp [processBatch, offer, hq2, hc]
        rw [hred]
        refine ih qh2 ?_ hall2 hwit2
        intro hnil
        have hlt := congrArg List.length hnil
        simp [hlen2] at hlt
      
theorem processBatch_error_of_mixed (N : Nat) (es : List Entry) (hN : 1 ≤ N)
    (hnone : ∃ e ∈ es, e.1 = none) (hsome : ∃ e ∈ es, ∃ a, e.1 = some a) :
    processBatch N [] es = Except.error () := by
  cases es with
  | nil =>
    rcases hnone with ⟨e, he, _⟩
    exact absurd he (List.not_mem_nil e)
  | cons e rest =>
    have hstep : processBatch N [] (e :: rest) = processBatch N [e] rest := by
      have hN0 : N ≠ 0 := by omega
      simp [processBatch, offer, heapInsert, hN0]
    rw [hstep]
    obtain ⟨m, k⟩ := e
    cases m with
    | none =>
      refine processBatch_error_of_none_heap N rest [(none, k)] (by simp)
        (by simp) ?_
      rcases hsome with ⟨y, hy, a, hy1⟩
      rcases List.mem_cons.mp hy with heq | hy2
      · rw [heq] at hy1
        simp at hy1
      · exact ⟨y, hy2, a, hy1⟩
    | some a =>
      have hmap : [((some a : Mem), k)] = ([((a : Nat), k)] : List PEntry).map lift := rfl
      rw [hmap]
      refine processBatch_error_of_some_heap N rest [(a, k)] (by simp) ?_
      rcases hnone with ⟨y, hy, hy1⟩
      rcases List.mem_cons.mp hy with heq | hy2
      · rw [heq] at hy1
        simp at hy1
      · exact ⟨y, hy2, hy1⟩

theorem processBatch_append (N : Nat) (heap : List Entry) (u v : List Entry) :
    processBatch N heap (u ++ v) =
      match processBatch N heap u with
      | Except.error e => Except.error e
      | Except.ok h => processBatch N h v := by
  induction u generalizing heap with
  | nil => simp [processBatch]
  | cons e rest ih =>
    simp only [List.cons_append, processBatch]
    cases ho : offer N heap e with
    | error u2 => simp
    | ok heap2 => simp [ih]

theorem runPages_entries (N : Nat) (mu : PyKey → Except Unit Mem) (m : PyKey → Mem)
    (gp : List (List PyKey)) (heap : List Entry)
    (hmu : ∀ k ∈ keysOf gp, mu k = Except.ok (m k)) :
    runPages N mu (gp.map Option.some) heap =
      match processBatch N heap ((keysOf gp).map (fun k => (m k, k))) with
      | Except.error _ => Except.error PyError.heapError
      | Except.ok h => Except.ok h := by
  induction gp generalizing heap with
  | nil => simp [runPages, keysOf, processBatch]
  | cons ks rest ih =>
    have hks : ∀ k ∈ ks, mu k = Except.ok (m k) := by
      intro k hk
      exact hmu k (by simp [keysOf, hk])
    have hlk := lookupBatch_ok mu m ks hks
    have hkeys : keysOf (ks :: rest) = ks ++ keysOf rest := rfl
    have hih : ∀ heap2, runPages N mu (rest.map Option.some) heap2 =
        match processBatch N heap2 ((keysOf rest).map (fun k => (m k, k))) with
        | Except.error _ => Except.error PyError.heapError
        | Except.ok h => Except.ok h :=
      fun heap2 => ih heap2 (fun k hk => hmu k (by simp [keysOf]; exact Or.inr hk))
    rw [hkeys, List.map_append, processBatch_append]
    cases hpb : processBatch N heap (ks.map (fun k => (m k, k))) with
    | error u =>
      simp [runPages, hlk, zip_map_self, hpb]
    | ok heap2 =>
      simp [runPages, hlk, zip_map_self, hpb, hih heap2]

/-! ## Remaining helper lemmas -/

theorem pLe_fst {a b : PEntry} (h : pLe a b) : a.1 ≤ b.1 := by
  rcases h with h | ⟨h, _⟩
  · exact le_of_lt h
  · exact le_of_eq h

theorem keysOf_length_const (B : Nat) (u : List (List PyKey))
    (h : ∀ p ∈ u, p.length = B) : (keysOf u).length = B * u.length := by
  induction u with
  | nil => simp [keysOf]
  | cons p ps ih =>
    simp only [keysOf, List.length_append, List.length_cons]
    rw [h p (List.mem_cons_self p ps), ih (fun q hq => h q (List.mem_cons_of_mem p hq))]
    ring

/-! ## Claims -/

/-- Claim C2 (code bug): the spec says the tool prints one line per entry in
the form "<key>: <size>", the key identifier first.  The source unpacks
`for key, memory in ...` over `(memory, key)` tuples, so for the store with
the single key a of size 5 the printed line is "5: a", the size first, not
"a: 5". -/
theorem C2_swapped_output :
    report C2store 10 = Except.ok (["5: a"], 0) ∧ "5: a" ≠ "a: 5" :=
  ⟨rfl, by decide⟩

/-- Claim C3, counterexample: for the store where key b was deleted between
scan and lookup (its measurement is absent) while key a has integer size 5,
the claim says the report completes successfully with b excluded; the code
instead aborts: pushing the tuple `(None, b)` makes the heap comparison
raise `TypeError`, re-raised as the generic heap-operations `Exception`. -/
theorem C3_counterexample :
    largest_keys C3store 10 10 = Except.error PyError.heapError := rfl

/-- Claim C3, amended: in a run where the size lookup of some key returns an
absent measurement while another enumerated key has an integer size, the
report does not complete and does not exclude the key: `largest_keys` aborts
with the heap-operations error, because the absent measurement cannot be
compared with an integer one. -/
theorem C3_aborts_on_missing (st : Store) (gp : List (List PyKey)) (m : PyKey → Mem)
    (hs bs : Int) (hpages : st.pages = gp.map Option.some)
    (hmu : ∀ k ∈ keysOf gp, st.memory_usage k = Except.ok (m k))
    (hnone : ∃ k ∈ keysOf gp, m k = none)
    (hsome : ∃ k ∈ keysOf gp, ∃ a, m k = some a)
    (hhs : 0 < hs) (hbs : 0 < bs) :
    largest_keys st hs bs = Except.error PyError.heapError := by
  unfold largest_keys
  rw [if_neg (by omega), if_neg (by omega), hpages]
  rw [runPages_entries hs.toNat st.memory_usage m gp [] hmu]
  have hnone2 : ∃ e ∈ (keysOf gp).map (fun k => (m k, k)), e.1 = none := by
    rcases hnone with ⟨k, hk, hkn⟩
    exact ⟨(m k, k), List.mem_map_of_mem _ hk, hkn⟩
  have hsome2 : ∃ e ∈ (keysOf gp).map (fun k => (m k, k)), ∃ a, e.1 = some a := by
    rcases hsome with ⟨k, hk, a, hka⟩
    exact ⟨(m k, k), List.mem_map_of_mem _ hk, a, hka⟩
  rw [processBatch_error_of_mixed hs.toNat _ (by omega) hnone2 hsome2]

/-- Witness for the amended C3 at a concrete two-key store where key y was
deleted between scan and lookup. -/
theorem C3_aborts_on_missing_witness :
    (∃ k ∈ keysOf [["x", "y"]], C3mW k = none) ∧
    (∃ k ∈ keysOf [["x", "y"]], ∃ a, C3mW k = some a) ∧
    largest_keys C3storeW 10 10 = Except.error PyError.heapError :=
  ⟨⟨"y", by decide, by decide⟩, ⟨"x", by decide, 7, by decide⟩,
    C3_aborts_on_missing C3storeW [["x", "y"]] C3mW 10 10 rfl (fun k _ => rfl)
      ⟨"y", by decide, by decide⟩ ⟨"x", by decide, 7, by decide⟩
      (by decide) (by decide)⟩

/-- Claim C4: for every input sequence of candidate entries and every heap
size N ≥ 1, at every point during processing (that is, after any processed
prefix of the sequence) the selector retains at most N entries. -/
theorem C4_heap_bounded (N : Nat) (hN : 1 ≤ N) (pre suf : List Entry)
    (h : List Entry) (hrun : processBatch N [] pre = Except.ok h) :
    h.length ≤ N :=
  processBatch_length pre [] h (Nat.zero_le N) hrun

/-- Witness for C4: with N = 1, after processing the first two of three
entries the heap holds one entry. -/
theorem C4_heap_bounded_witness :
    1 ≤ 1 ∧
    processBatch 1 [] [(some 3, "a"), (some 1, "b")] = Except.ok [(some 3, "a")] ∧
    ([(some 3, "a")] : List Entry).length ≤ 1 :=
  ⟨le_refl 1, rfl,
    C4_heap_bounded 1 (le_refl 1) [(some 3, "a"), (some 1, "b")] [(some 2, "c")]
      [(some 3, "a")] rfl⟩

/-- Claim C5: a non-positive heap_size or batch_size makes `largest_keys`
raise `ValueError` before any store interaction: no scan request is issued
and the outcome does not depend on the store at all.  (The embedding types
both arguments as integers, so "not a positive integer" is "≤ 0".) -/
theorem C5_validation (st : Store) (hs bs : Int) (hinv : hs ≤ 0 ∨ bs ≤ 0) :
    (∃ msg, largest_keys st hs bs = Except.error (PyError.valueError msg)) ∧
    scanRequests st hs bs = [] ∧
    ∀ st2 : Store, largest_keys st2 hs bs = largest_keys st hs bs := by
  by_cases h1 : hs ≤ 0
  · unfold largest_keys scanRequests
    simp [h1]
  · have h2 : bs ≤ 0 := by
      rcases hinv with h | h
      · exact absurd h h1
      · exact h
    unfold largest_keys scanRequests
    simp [h1, h2]

/-- Witness for C5: heap_size 0 is rejected with no store interaction. -/
theorem C5_validation_witness :
    ((0 : Int) ≤ 0 ∨ (10 : Int) ≤ 0) ∧
    ((∃ msg, largest_keys W1store 0 10 = Except.error (PyError.valueError msg)) ∧
      scanRequests W1store 0 10 = [] ∧
      ∀ st2 : Store, largest_keys st2 0 10 = largest_keys W1store 0 10) :=
  ⟨Or.inl (by decide), C5_validation W1store 0 10 (Or.inl (by decide))⟩

/-- Claim C6: when some scan page request fails (after any number of good
pages whose keys all measure as integers), `largest_keys` aborts the whole
report with the scan error, which is distinct from the size-lookup error,
and no top-K result is returned to the caller. -/
theorem C6_scan_failure (st : Store) (gp : List (List PyKey)) (sz : PyKey → Nat)
    (rest : List (Option (List PyKey))) (hs bs : Int)
    (hpages : st.pages = gp.map Option.some ++ none :: rest)
    (hsz : ∀ k ∈ keysOf gp, st.memory_usage k = Except.ok (some (sz k)))
    (hhs : 0 < hs) (hbs : 0 < bs) :
    largest_keys st hs bs = Except.error PyError.scanError ∧
    PyError.scanError ≠ PyError.lookupError ∧
    ∀ res, largest_keys st hs bs ≠ Except.ok res := by
  have hok := runPages_good hs.toNat st.memory_usage sz gp [] hsz
  simp only [List.map_nil] at hok
  have heq : largest_keys st hs bs = Except.error PyError.scanError := by
    unfold largest_keys
    rw [if_neg (by omega), if_neg (by omega), hpages]
    rw [runPages_append_ok _ _ _ _ _ _ hok]
    rfl
  refine ⟨heq, by decide, ?_⟩
  intro res hres
  rw [heq] at hres
  cases hres

/-- Witness for C6: the second scan request of `W6store` fails. -/
theorem C6_scan_failure_witness :
    W6store.pages = [["a", "b"]].map Option.some ++ none :: [] ∧
    (largest_keys W6store 3 10 = Except.error PyError.scanError ∧
      PyError.scanError ≠ PyError.lookupError ∧
      ∀ res, largest_keys W6store 3 10 ≠ Except.ok res) :=
  ⟨rfl,
    C6_scan_failure W6store [["a", "b"]] W1sz [] 3 10 rfl
      (by intro k hk; simp [keysOf] at hk; rcases hk with rfl | rfl <;> rfl)
      (by decide) (by decide)⟩

/-- Claim C7: against an empty keyspace, `largest_keys` returns the empty
list and the tool prints "No keys in database." instead of an empty listing,
exiting with code 0. -/
theorem C7_empty_keyspace (st : Store) (gp : List (List PyKey)) (hs : Int)
    (hpages : st.pages = gp.map Option.some) (hempty : keysOf gp = [])
    (hhs : 0 < hs) :
    largest_keys st hs 10 = Except.ok [] ∧
    report st hs = Except.ok (["No keys in database."], 0) := by
  have hsz0 : ∀ k ∈ keysOf gp, st.memory_usage k = Except.ok (some 0) := by
    intro k hk
    rw [hempty] at hk
    exact absurd hk (List.not_mem_nil k)
  have h1 := largest_keys_good st gp (fun _ => 0) hs 10 hpages hsz0 hhs (by decide)
  rw [hempty] at h1
  simp only [List.map_nil, pProcess, pSortDesc] at h1
  refine ⟨h1, ?_⟩
  unfold report
  rw [h1]

/-- Witness for C7 at the concrete empty store with N = 10. -/
theorem C7_empty_keyspace_witness :
    keysOf [[]] = [] ∧ (0 : Int) < 10 ∧
    (largest_keys W7store 10 10 = Except.ok [] ∧
      report W7store 10 = Except.ok (["No keys in database."], 0)) :=
  ⟨rfl, by decide, C7_empty_keyspace W7store [[]] 10 rfl rfl (by decide)⟩

/-- Claim C1: for every keyspace of K distinct keys with integer sizes and
every requested top-N with N ≥ 1, `largest_keys` succeeds and returns a list
that, if K ≤ N, contains exactly K entries, exactly the full keyspace, and
if K > N, contains exactly N entries whose sizes are (as a multiset) the N
largest sizes present; in both cases the list is sorted descending by size. -/
theorem C1_topk_correct (st : Store) (gp : List (List PyKey)) (sz : PyKey → Nat)
    (hs bs : Int) (hpages : st.pages = gp.map Option.some)
    (hsz : ∀ k ∈ keysOf gp, st.memory_usage k = Except.ok (some (sz k)))
    (hnd : (keysOf gp).Nodup) (hhs : 0 < hs) (hbs : 0 < bs) :
    ∃ res : List PEntry,
      largest_keys st hs bs = Except.ok (res.map lift) ∧
      res.length = min (keysOf gp).length hs.toNat ∧
      ((keysOf gp).length ≤ hs.toNat →
        res.Perm ((keysOf gp).map (fun k => (sz k, k)))) ∧
      (hs.toNat < (keysOf gp).length →
        (res.map Prod.fst).Perm (topNSizes hs.toNat ((keysOf gp).map sz))) ∧
      res.Pairwise (fun a b => b.1 ≤ a.1) := by
  have hN1 : 1 ≤ hs.toNat := by omega
  refine ⟨pSortDesc (pProcess hs.toNat [] ((keysOf gp).map (fun k => (sz k, k)))),
    largest_keys_good st gp sz hs bs hpages hsz hhs hbs, ?_, ?_, ?_, ?_⟩
  all_goals
    set ks := keysOf gp with hks
    set es := ks.map (fun k => (sz k, k)) with hes
    set N := hs.toNat with hNdef
  case _ =>
    have h1 : (pSortDesc (pProcess N [] es)).length = es.length - (es.length - N) := by
      rw [(pSortDesc_perm _).length_eq, pProcess_eq N hN1 es, List.length_drop,
        pSort_length]
    have h2 : es.length = ks.length := by rw [hes, List.length_map]
    omega
  case _ =>
    intro hKN
    have h2 : es.length = ks.length := by rw [hes, List.length_map]
    have h0 : es.length - N = 0 := by omega
    rw [pProcess_eq N hN1 es, h0, List.drop_zero]
    exact (pSortDesc_perm _).trans (pSort_perm es)
  case _ =>
    intro hNK
    have h2 : es.length = ks.length := by rw [hes, List.length_map]
    have hmapfst : (pSort es).map Prod.fst =
        List.insertionSort (· ≤ ·) (es.map Prod.fst) := by
      refine List.eq_of_perm_of_sorted ?_ ?_ (List.sorted_insertionSort _ _)
      · exact ((pSort_perm es).map _).trans (List.perm_insertionSort _ _).symm
      · exact List.Pairwise.map _ (fun a b hab => pLe_fst hab) (pSort_sorted es)
    have hperm1 : ((pSortDesc (pProcess N [] es)).map Prod.fst).Perm
        (((pSort es).drop (es.length - N)).map Prod.fst) := by
      rw [pProcess_eq N hN1 es]
      exact (pSortDesc_perm _).map _
    rw [List.map_drop, hmapfst] at hperm1
    have hfst : es.map Prod.fst = ks.map sz := by
      rw [hes, List.map_map]
      rfl
    unfold topNSizes
    rw [← hfst]
    have hlen3 : (es.map Prod.fst).length = es.length := List.length_map es Prod.fst
    rw [hlen3]
    exact hperm1
  case _ =>
    exact pSortDesc_pairwise _

/-- Witness for C1: the spec scenario A store (a:5, b:3, c:9, d:1) with
N = 2. -/
theorem C1_topk_correct_witness :
    (keysOf [["a", "b"], ["c", "d"]]).Nodup ∧ (0 : Int) < 2 ∧
    (∃ res : List PEntry,
      largest_keys W1store 2 10 = Except.ok (res.map lift) ∧
      res.length = min (keysOf [["a", "b"], ["c", "d"]]).length (2 : Int).toNat ∧
      ((keysOf [["a", "b"], ["c", "d"]]).length ≤ (2 : Int).toNat →
        res.Perm ((keysOf [["a", "b"], ["c", "d"]]).map (fun k => (W1sz k, k)))) ∧
      ((2 : Int).toNat < (keysOf [["a", "b"], ["c", "d"]]).length →
        (res.map Prod.fst).Perm
          (topNSizes (2 : Int).toNat ((keysOf [["a", "b"], ["c", "d"]]).map W1sz))) ∧
      res.Pairwise (fun a b => b.1 ≤ a.1)) :=
  ⟨by decide, by decide,
    C1_topk_correct W1store [["a", "b"], ["c", "d"]] W1sz 2 10 rfl
      (by intro k hk; simp [keysOf] at hk; rcases hk with rfl | rfl | rfl | rfl <;> rfl)
      (by decide) (by decide) (by decide)⟩

/-- Claim C9: two runs of `largest_keys` against the same unmutated keyspace
(the same keys with the same sizes, even if the store enumerates them in a
different page decomposition or order) return equal result lists, hence in
particular set-equal ones. -/
theorem C9_idempotent (st1 st2 : Store) (gp1 gp2 : List (List PyKey))
    (sz : PyKey → Nat) (hs bs : Int)
    (hp1 : st1.pages = gp1.map Option.some) (hp2 : st2.pages = gp2.map Option.some)
    (hsz1 : ∀ k ∈ keysOf gp1, st1.memory_usage k = Except.ok (some (sz k)))
    (hsz2 : ∀ k ∈ keysOf gp2, st2.memory_usage k = Except.ok (some (sz k)))
    (hperm : (keysOf gp1).Perm (keysOf gp2)) (hhs : 0 < hs) (hbs : 0 < bs) :
    largest_keys st1 hs bs = largest_keys st2 hs bs := by
  have hN1 : 1 ≤ hs.toNat := by omega
  rw [largest_keys_good st1 gp1 sz hs bs hp1 hsz1 hhs hbs,
      largest_keys_good st2 gp2 sz hs bs hp2 hsz2 hhs hbs]
  have hesperm : ((keysOf gp1).map (fun k => (sz k, k))).Perm
      ((keysOf gp2).map (fun k => (sz k, k))) := hperm.map _
  rw [pProcess_eq _ hN1, pProcess_eq _ hN1]
  rw [pSort_eq_of_perm hesperm, hesperm.length_eq]

/-- Witness for C9: the four-key store enumerated in two pages versus the
same keyspace enumerated in one reversed page. -/
theorem C9_idempotent_witness :
    (keysOf [["a", "b"], ["c", "d"]]).Perm (keysOf [["d", "c", "b", "a"]]) ∧
    largest_keys W1store 2 10 = largest_keys W1storeR 2 10 :=
  ⟨by decide,
    C9_idempotent W1store W1storeR [["a", "b"], ["c", "d"]] [["d", "c", "b", "a"]]
      W1sz 2 10 rfl rfl
      (by intro k hk; simp [keysOf] at hk; rcases hk with rfl | rfl | rfl | rfl <;> rfl)
      (by intro k hk; simp [keysOf] at hk; rcases hk with rfl | rfl | rfl | rfl <;> rfl)
      (by decide) (by decide) (by decide)⟩

/-- Claim C10: heap entries are `(size, key)` tuples compared
lexicographically, so when an incoming entry makes the full heap overflow
and forces an eviction, the evicted entry is the lexicographic minimum of
the heap together with the incoming entry: its size is minimal, and among
entries of that equal minimal size it has the smallest key. -/
theorem C10_eviction (N : Nat) (ph : List PEntry) (e : PEntry)
    (hsorted : ph.Sorted pLe) (hlen : ph.length = N) (hN : 1 ≤ N) :
    ∃ x rest, pInsert e ph = x :: rest ∧
      offer N (ph.map lift) (lift e) = Except.ok (rest.map lift) ∧
      (∀ y ∈ e :: ph, pLe x y) ∧
      (∀ y ∈ e :: ph, y.1 = x.1 → x.2 ≤ y.2) := by
  obtain ⟨x, rest, hx⟩ : ∃ x rest, pInsert e ph = x :: rest := by
    cases hp : pInsert e ph with
    | nil =>
      have hl := pInsert_length e ph
      rw [hp] at hl
      simp at hl
    | cons a b => exact ⟨a, b, rfl⟩
  have hsorted2 : (x :: rest).Sorted pLe := hx ▸ pInsert_sorted e hsorted
  have hperm : (x :: rest).Perm (e :: ph) := hx ▸ pInsert_perm e ph
  have hmin : ∀ y ∈ e :: ph, pLe x y := by
    intro y hy
    have hy2 : y ∈ x :: rest := hperm.mem_iff.mpr hy
    rcases List.mem_cons.mp hy2 with rfl | hy3
    · exact pLe_refl y
    · exact (List.sorted_cons.mp hsorted2).1 y hy3
  refine ⟨x, rest, hx, ?_, hmin, ?_⟩
  · rw [offer_lift]
    congr 1
    unfold pOffer
    have hlen2 : (pInsert e ph).length = N + 1 := by rw [pInsert_length, hlen]
    rw [if_pos (by omega), hx]
    rfl
  · intro y hy hy1
    rcases hmin y hy with h1 | ⟨_, h3⟩
    · omega
    · exact h3

/-- Decidability of the entry order, used to check witness hypotheses. -/
instance (a b : PEntry) : Decidable (pLe a b) := by
  unfold pLe
  infer_instance

/-- Witness for C10: a full heap of two entries sorted ascending; offering a
third entry evicts the minimum. -/
theorem C10_eviction_witness :
    ([((3 : Nat), "a"), (5, "b")] : List PEntry).Sorted pLe ∧
    (∃ x rest, pInsert (4, "c") [((3 : Nat), "a"), (5, "b")] = x :: rest ∧
      offer 2 (([((3 : Nat), "a"), (5, "b")] : List PEntry).map lift) (lift (4, "c")) =
        Except.ok (rest.map lift) ∧
      (∀ y ∈ ((4, "c") : PEntry) :: [((3 : Nat), "a"), (5, "b")], pLe x y) ∧
      (∀ y ∈ ((4, "c") : PEntry) :: [((3 : Nat), "a"), (5, "b")], y.1 = x.1 → x.2 ≤ y.2)) :=
  ⟨by decide,
    C10_eviction 2 [((3 : Nat), "a"), (5, "b")] (4, "c") (by decide) rfl (by decide)⟩

/-- Claim C8: for a store whose cursor chain reaches the terminating cursor
after finitely many pages of size B (the last page holding between 1 and B
keys), `largest_keys` completes, issuing exactly one scan request per page
of the chain, ceil(K/B) requests in total for K keys, and never requests
the same cursor twice. -/
theorem C8_enumeration (st : Store) (gp : List (List PyKey)) (sz : PyKey → Nat)
    (hs bs : Int) (hpages : st.pages = gp.map Option.some)
    (hsz : ∀ k ∈ keysOf gp, st.memory_usage k = Except.ok (some (sz k)))
    (hhs : 0 < hs) (hbs : 0 < bs) (hne : gp ≠ [])
    (hfull : ∀ p ∈ gp.dropLast, p.length = bs.toNat)
    (hlast1 : 0 < (gp.getLast hne).length)
    (hlast2 : (gp.getLast hne).length ≤ bs.toNat) :
    scanRequests st hs bs = List.range gp.length ∧
    gp.length = ((keysOf gp).length + bs.toNat - 1) / bs.toNat ∧
    (scanRequests st hs bs).Nodup ∧
    ∃ res, largest_keys st hs bs = Except.ok res := by
  have hreq : scanRequests st hs bs = List.range gp.length := by
    unfold scanRequests
    rw [if_neg (by omega), if_neg (by omega), hpages]
    have h1 := runCursors_good hs.toNat st.memory_usage sz gp [] 0 hsz
    simp only [List.map_nil] at h1
    rw [h1]
    simp
  refine ⟨hreq, ?_, by rw [hreq]; exact List.nodup_range _,
    ⟨_, largest_keys_good st gp sz hs bs hpages hsz hhs hbs⟩⟩
  set B := bs.toNat with hB
  have hBpos : 0 < B := by omega
  have hdecomp : gp.dropLast ++ [gp.getLast hne] = gp := List.dropLast_append_getLast hne
  have hlenD : (keysOf gp.dropLast).length = B * gp.dropLast.length :=
    keysOf_length_const B gp.dropLast hfull
  have hKsplit : (keysOf gp).length = B * gp.dropLast.length + (gp.getLast hne).length := by
    conv_lhs => rw [← hdecomp]
    rw [keysOf_append, List.length_append, hlenD]
    simp [keysOf]
  have hlenDL : gp.dropLast.length = gp.length - 1 := List.length_dropLast gp
  have hgplen : 1 ≤ gp.length := List.length_pos.mpr hne
  rw [hKsplit, hlenDL]
  have h2 : B * (gp.length - 1) + (gp.getLast hne).length + B - 1 =
      B * (gp.length - 1 + 1) + ((gp.getLast hne).length - 1) := by
    rw [Nat.mul_succ]
    omega
  rw [h2, Nat.mul_add_div hBpos, Nat.div_eq_of_lt (by omega)]
  omega

/-- Witness for C8: the four-key store over two pages of size 2, so
ceil(4/2) = 2 requests with cursors 0 and 1. -/
theorem C8_enumeration_witness :
    ([["a", "b"], ["c", "d"]] : List (List PyKey)) ≠ [] ∧
    (scanRequests W1store 2 2 = List.range 2 ∧
      ([["a", "b"], ["c", "d"]] : List (List PyKey)).length =
        ((keysOf [["a", "b"], ["c", "d"]]).length + (2 : Int).toNat - 1) / (2 : Int).toNat ∧
      (scanRequests W1store 2 2).Nodup ∧
      ∃ res, largest_keys W1store 2 2 = Except.ok res) :=
  ⟨by decide,
    C8_enumeration W1store [["a", "b"], ["c", "d"]] W1sz 2 2 rfl
      (by intro k hk; simp [keysOf] at hk; rcases hk with rfl | rfl | rfl | rfl <;> rfl)
      (by decide) (by decide) (by decide) (by decide) (by decide) (by decide)⟩

end RedisKeys
